import Mathlib

/-
Verification of the propositional-proof engine in
`src/propositions/proofs.py` and of the name conversions in
`src/predicates/functions.py`.

The proof engine is embedded shallowly: each Python function becomes a
Lean function over the same data, with Python's `None` rendered as
`Option.none`, Python lists as `List`, the `frozenset` of rules as a
`Finset`, and Python dicts (specialization maps, the `subs` table of the
inliner) as association lists queried through a first-match lookup, which
is exactly the dict's key-to-value semantics since the code never stores
a key twice.  Partial operations of the source (indexing, `list.index`,
dict access) are totalized with explicit defaults; every theorem below is
stated inside the regime where the source's own `assert` preconditions
hold, so the defaults are never observable there.
-/

/-- Modelled from the spec: the propositional `Formula` collaborator
(`src/propositions/syntax.py` is not under `src/`).  Per spec sections 3
and 6 a formula is an immutable, structurally-equal tree whose root is a
variable, a constant, a unary operator, or a binary operator. -/
inductive Formula : Type where
  | var (v : String)
  | const (b : Bool)
  | neg (f : Formula)
  | binop (op : String) (f : Formula) (g : Formula)
deriving DecidableEq

/-- A specialization map: a Python dict from variable names to formulas,
rendered as an association list with first-match lookup. -/
abbrev SpecializationMap : Type := List (String × Formula)

/-- First-match lookup in an association list (Python dict access). -/
def smap_lookup : SpecializationMap → String → Option Formula
  | [], _ => none
  | p :: rest, v => if p.1 = v then some p.2 else smap_lookup rest v

/-- Modelled from the spec: `Formula.variables` of the missing syntax
module — the variable names occurring in a formula. -/
def Formula.variables : Formula → List String
  | .var v => [v]
  | .const _ => []
  | .neg f => f.variables
  | .binop _ f g => f.variables ++ g.variables

/-- Modelled from the spec: `Formula.substitute_variables` of the missing
syntax module — simultaneous substitution of the map's keys (spec
section 6); variables that are not keys pass through unchanged. -/
def Formula.substitute_variables : Formula → SpecializationMap → Formula
  | .var v, m => (smap_lookup m v).getD (.var v)
  | .const b, _ => .const b
  | .neg f, m => .neg (f.substitute_variables m)
  | .binop op f g, m => .binop op (f.substitute_variables m) (g.substitute_variables m)

/-- `InferenceRule` of `proofs.py`: ordered assumptions and a conclusion. -/
structure InferenceRule : Type where
  assumptions : List Formula
  conclusion : Formula
deriving DecidableEq

/-- `InferenceRule.variables` (`proofs.py`, Task 4.1). -/
def InferenceRule.variables (r : InferenceRule) : List String :=
  r.conclusion.variables ++ (r.assumptions.map Formula.variables).flatten

/-- `InferenceRule.specialize` (`proofs.py`, Task 4.4). -/
def InferenceRule.specialize (r : InferenceRule) (m : SpecializationMap) :
    InferenceRule :=
  ⟨r.assumptions.map (fun f => f.substitute_variables m),
   r.conclusion.substitute_variables m⟩

/-- `InferenceRule._merge_specialization_maps` (`proofs.py`, Task 4.5a):
`None` absorbs; otherwise fail iff some key of the first map is bound in
the second map to a different formula, and on success keep the second
map's entries and append the first map's entries whose keys are new. -/
def InferenceRule.merge_specialization_maps :
    Option SpecializationMap → Option SpecializationMap →
    Option SpecializationMap
  | none, _ => none
  | some _, none => none
  | some m1, some m2 =>
    if m1.all (fun p =>
        match smap_lookup m2 p.1 with
        | some q => decide (p.2 = q)
        | none => true) then
      some (m2 ++ m1.filter (fun p => (smap_lookup m2 p.1).isNone))
    else none

/-- `InferenceRule._formula_specialization_map` (`proofs.py`, Task 4.5b). -/
def InferenceRule.formula_specialization_map :
    Formula → Formula → Option SpecializationMap
  | .const b, s => if s = .const b then some [] else none
  | .var v, s => some [(v, s)]
  | .neg f, .neg s => InferenceRule.formula_specialization_map f s
  | .neg _, _ => none
  | .binop op f g, .binop op2 s t =>
    if op = op2 then
      InferenceRule.merge_specialization_maps
        (InferenceRule.formula_specialization_map f s)
        (InferenceRule.formula_specialization_map g t)
    else none
  | .binop _ _ _, _ => none

/-- The fold of `InferenceRule.specialization_map`'s loop (Task 4.5c):
merge the accumulated map with each positional assumption pair's map. -/
def InferenceRule.merge_fold :
    Option SpecializationMap → List (Formula × Formula) →
    Option SpecializationMap
  | sm, [] => sm
  | sm, p :: rest =>
    InferenceRule.merge_fold
      (InferenceRule.merge_specialization_maps sm
        (InferenceRule.formula_specialization_map p.1 p.2)) rest

/-- `InferenceRule.specialization_map` (`proofs.py`, Task 4.5c). -/
def InferenceRule.specialization_map (r s : InferenceRule) :
    Option SpecializationMap :=
  if r.assumptions.length = s.assumptions.length then
    InferenceRule.merge_fold
      (InferenceRule.formula_specialization_map r.conclusion s.conclusion)
      (r.assumptions.zip s.assumptions)
  else none

/-- `InferenceRule.is_specialization_of` (`proofs.py`). -/
def InferenceRule.is_specialization_of (s general : InferenceRule) : Bool :=
  (general.specialization_map s).isSome

example :
    (InferenceRule.mk [Formula.var "p"] (Formula.var "p")).specialization_map
      (InferenceRule.mk [Formula.var "q"] (Formula.var "q")) =
    some [("p", Formula.var "q")] := by decide

example :
    (InferenceRule.mk [Formula.var "r"] (Formula.var "q")).specialization_map
      (InferenceRule.mk [Formula.var "s"] (Formula.var "q")) =
    some [("r", Formula.var "s"), ("q", Formula.var "q")] := by decide

/-- `Proof.Line` of `proofs.py`: a formula, justified either as an
assumption (`rule is None and assumptions is None`) or by a rule applied
to earlier line numbers; the constructor's `assert` ties the two
`Optional` fields together, so they are embedded as one option. -/
structure Proof.Line : Type where
  formula : Formula
  justification : Option (InferenceRule × List Nat)
deriving DecidableEq

/-- The `rule` attribute of a line. -/
def Proof.Line.rule (l : Proof.Line) : Option InferenceRule :=
  l.justification.map Prod.fst

/-- The `assumptions` attribute of a line (the justification numbers). -/
def Proof.Line.line_assumptions (l : Proof.Line) : Option (List Nat) :=
  l.justification.map Prod.snd

/-- `Proof.Line.is_assumption` (`proofs.py`). -/
def Proof.Line.is_assumption (l : Proof.Line) : Bool :=
  l.justification.isNone

/-- `Proof` of `proofs.py`: a statement, a `frozenset` of allowed rules,
and a tuple of lines. -/
structure Proof : Type where
  statement : InferenceRule
  rules : Finset InferenceRule
  lines : List Proof.Line

/-- Default line used to totalize Python's list indexing; never reached
under the source's `assert` preconditions. -/
def default_line : Proof.Line := ⟨Formula.const true, none⟩

/-- `self.lines[i]`, totalized. -/
def Proof.lineAt (p : Proof) (i : Nat) : Proof.Line :=
  p.lines.getD i default_line

/-- `Proof.rule_for_line` (`proofs.py`, Task 4.6a): the ad hoc rule whose
assumptions are the formulas of the justifying lines, in order, and whose
conclusion is the line's own formula; `None` for an assumption line. -/
def Proof.rule_for_line (p : Proof) (i : Nat) : Option InferenceRule :=
  match (p.lineAt i).justification with
  | none => none
  | some (_, js) => some ⟨js.map (fun j => (p.lineAt j).formula), (p.lineAt i).formula⟩

/-- `Proof.is_line_valid` (`proofs.py`, Task 4.6b). -/
def Proof.is_line_valid (p : Proof) (i : Nat) : Bool :=
  match (p.lineAt i).justification with
  | none => decide ((p.lineAt i).formula ∈ p.statement.assumptions)
  | some (r, js) =>
    if js.any (fun j => i ≤ j) then false
    else if r ∈ p.rules then
      match p.rule_for_line i with
      | some rr => rr.is_specialization_of r
      | none => false
    else false

/-- `Proof.is_valid` (`proofs.py`, Task 4.6c). -/
def Proof.is_valid (p : Proof) : Bool :=
  if p.lines.length = 0 then false
  else
    ((List.range p.lines.length).all (fun i => p.is_line_valid i)) &&
    decide ((p.lineAt (p.lines.length - 1)).formula = p.statement.conclusion)

/-- `prove_specialization` (`proofs.py`, Task 5.1): rewrite every line's
formula under the computed specialization map, keeping each line's rule
and justification numbers; Python's dict is `some` whenever the asserted
precondition holds, so the totalizing default `[]` is never reached
there. -/
def prove_specialization (proof : Proof) (specialization : InferenceRule) :
    Proof :=
  let m := (proof.statement.specialization_map specialization).getD []
  ⟨specialization, proof.rules,
   proof.lines.map (fun l => ⟨l.formula.substitute_variables m, l.justification⟩)⟩

/-- First index of a formula in a list (Python `list.index`), totalized
to the list's length when the formula is absent. -/
def index_of_formula : List Formula → Formula → Nat
  | [], _ => 0
  | f :: rest, g => if f = g then 0 else index_of_formula rest g + 1

/-- First-match lookup in the inliner's `subs` dict from old line numbers
of the specialized lemma proof to line numbers of the proof being built. -/
def subs_lookup : List (Nat × Nat) → Nat → Option Nat
  | [], _ => none
  | p :: rest, v => if p.1 = v then some p.2 else subs_lookup rest v

/-- The loop state of `_inline_proof_once` (`proofs.py`, Task 5.2a): the
lines built so far, the `subs` dict, and the running assumption count. -/
structure SpliceState : Type where
  new_lines : List Proof.Line
  subs : List (Nat × Nat)
  acount : Nat

/-- The first loop of `_inline_proof_once`: walk the specialized lemma
proof's lines; alias each assumption line to the justifying line of the
replaced line (matched positionally through `statement.assumptions.index`),
and append each derivation line with its justification numbers remapped
through `subs`. -/
def splice_lemma_lines (target_assumptions : List Formula)
    (just_numbers : List Nat) :
    Nat → List Proof.Line → SpliceState → SpliceState
  | _, [], st => st
  | i, l :: rest, st =>
    match l.justification with
    | none =>
      let idx := index_of_formula target_assumptions l.formula
      splice_lemma_lines target_assumptions just_numbers (i + 1) rest
        ⟨st.new_lines, st.subs ++ [(i, just_numbers.getD idx 0)], st.acount + 1⟩
    | some (r, js) =>
      let na := js.map (fun j => (subs_lookup st.subs j).getD 0)
      splice_lemma_lines target_assumptions just_numbers (i + 1) rest
        ⟨st.new_lines ++ [⟨l.formula, some (r, na)⟩],
         st.subs ++ [(i, st.new_lines.length)], st.acount⟩

/-- The specialization of the lemma's proof to the rule reconstructed at
the replaced line, as computed by `_inline_proof_once`. -/
def specialized_lemma (main_proof : Proof) (line_number : Nat)
    (lemma_proof : Proof) : Proof :=
  prove_specialization lemma_proof
    ((main_proof.rule_for_line line_number).getD ⟨[], Formula.const true⟩)

/-- The state after `_inline_proof_once`'s first loop, starting from the
kept prefix of the main proof. -/
def splice_result (main_proof : Proof) (line_number : Nat)
    (lemma_proof : Proof) : SpliceState :=
  splice_lemma_lines
    (specialized_lemma main_proof line_number lemma_proof).statement.assumptions
    (((main_proof.lineAt line_number).line_assumptions).getD []) 0
    (specialized_lemma main_proof line_number lemma_proof).lines
    ⟨main_proof.lines.take line_number, [], 0⟩

/-- `offset = len(partial_proof.lines) - assumptions_count - 1`, computed
in `Int` since Python's subtraction can go to `-1`. -/
def splice_offset (main_proof : Proof) (line_number : Nat)
    (lemma_proof : Proof) : Int :=
  ((specialized_lemma main_proof line_number lemma_proof).lines.length : Int) -
    ((splice_result main_proof line_number lemma_proof).acount : Int) - 1

/-- The second loop of `_inline_proof_once`: a line after the replaced
one is kept as is when it is an assumption line, and otherwise keeps its
formula and rule while each justification number `j` becomes `j` when
`j < line_number` and `j + offset` otherwise. -/
def remap_line (line_number : Nat) (offset : Int) (l : Proof.Line) :
    Proof.Line :=
  match l.justification with
  | none => l
  | some (r, js) =>
    ⟨l.formula, some (r, js.map (fun j =>
      if j < line_number then j else ((j : Int) + offset).toNat))⟩

/-- `_inline_proof_once` (`proofs.py`, Task 5.2a): keep the lines before
`line_number`, splice in the specialized lemma proof's derivation lines,
and remap the justification numbers of the remaining lines. -/
def inline_proof_once (main_proof : Proof) (line_number : Nat)
    (lemma_proof : Proof) : Proof :=
  ⟨main_proof.statement, main_proof.rules ∪ lemma_proof.rules,
   (splice_result main_proof line_number lemma_proof).new_lines ++
     (main_proof.lines.drop (line_number + 1)).map
       (remap_line line_number
         (splice_offset main_proof line_number lemma_proof))⟩

/-- Number of derivation lines whose declared rule equals `r` — the
quantity `inline_proof`'s scan loop is driven by. -/
def usage_count (p : Proof) (r : InferenceRule) : Nat :=
  p.lines.countP (fun l => decide (l.rule = some r))

/-- First index of a line whose declared rule equals `r` (the
`enumerate` scan of `inline_proof`'s loop), if any. -/
def find_line_usage (r : InferenceRule) : List Proof.Line → Option Nat
  | [] => none
  | l :: rest =>
    if l.rule = some r then some 0
    else (find_line_usage r rest).map (fun i => i + 1)

/-- The scan of `inline_proof`'s loop: the first line number whose
declared rule equals `r`, if any. -/
def find_usage (p : Proof) (r : InferenceRule) : Option Nat :=
  find_line_usage r p.lines

/-- The rescan-and-splice loop of `inline_proof` (`proofs.py`, Task 5.2b),
expressed with explicit fuel; `inline_proof` runs it with fuel equal to
the number of lemma-rule usages, which is exactly the number of
iterations the Python `while` performs whenever it terminates. -/
def inline_loop (lemma_proof : Proof) : Nat → Proof → Proof
  | 0, p => p
  | fuel + 1, p =>
    match find_usage p lemma_proof.statement with
    | none => p
    | some i => inline_loop lemma_proof fuel (inline_proof_once p i lemma_proof)

/-- `inline_proof` (`proofs.py`, Task 5.2b): eliminate every usage of the
lemma rule, then drop the lemma rule from the allowed set. -/
def inline_proof (main_proof : Proof) (lemma_proof : Proof) : Proof :=
  let r := inline_loop lemma_proof (usage_count main_proof lemma_proof.statement)
    main_proof
  ⟨r.statement, r.rules.erase lemma_proof.statement, r.lines⟩

/-- Modelled from the spec: `is_function` of the missing
`src/predicates/syntax.py` — a valid function name starts with a
lowercase letter (spec: "capitalize-first-letter encoding" over function
symbols, which begin lowercase). -/
def is_function (s : String) : Bool :=
  match s.data with
  | [] => false
  | c :: _ => decide (97 ≤ c.toNat) && decide (c.toNat ≤ 122)

/-- `function_name_to_relation_name` (`functions.py`): capitalize the
first letter (Python `function[0].upper() + function[1:]`). -/
def function_name_to_relation_name (function : String) : String :=
  match function.data with
  | [] => ⟨[]⟩
  | c :: rest => ⟨c.toUpper :: rest⟩

/-- `relation_name_to_function_name` (`functions.py`): lowercase the
first letter. -/
def relation_name_to_function_name (relation : String) : String :=
  match relation.data with
  | [] => ⟨[]⟩
  | c :: rest => ⟨c.toLower :: rest⟩

example : function_name_to_relation_name "plus" = "Plus" := by decide

example : relation_name_to_function_name "Plus" = "plus" := by decide

/-! Lookup lemmas for association-list maps. -/

theorem smap_lookup_append_of_some {a b : SpecializationMap} {v : String}
    {x : Formula} (h : smap_lookup a v = some x) :
    smap_lookup (a ++ b) v = some x := by
  induction a with
  | nil => simp [smap_lookup] at h
  | cons p rest ih =>
    by_cases hp : p.1 = v
    · simpa [smap_lookup, hp] using h
    · simp only [smap_lookup, hp, if_false, List.cons_append] at h ⊢
      exact ih h

theorem smap_lookup_append_of_none {a b : SpecializationMap} {v : String}
    (h : smap_lookup a v = none) :
    smap_lookup (a ++ b) v = smap_lookup b v := by
  induction a with
  | nil => rfl
  | cons p rest ih =>
    by_cases hp : p.1 = v
    · simp [smap_lookup, hp] at h
    · simp only [smap_lookup, hp, if_false, List.cons_append] at h ⊢
      exact ih h

theorem smap_lookup_filter_key {m : SpecializationMap} {v : String}
    (P : String → Bool) (hv : P v = true) :
    smap_lookup (m.filter (fun p => P p.1)) v = smap_lookup m v := by
  induction m with
  | nil => rfl
  | cons p rest ih =>
    by_cases hp : p.1 = v
    · subst hp
      simp [List.filter, hv, smap_lookup]
    · cases hP : P p.1 <;>
        simp [List.filter, hP, smap_lookup, hp, ih]

theorem smap_lookup_mem {m : SpecializationMap} {v : String} {x : Formula}
    (h : smap_lookup m v = some x) : (v, x) ∈ m := by
  induction m with
  | nil => simp [smap_lookup] at h
  | cons p rest ih =>
    obtain ⟨p1, p2⟩ := p
    by_cases hp : p1 = v
    · subst hp
      simp only [smap_lookup, if_true] at h
      obtain ⟨rfl⟩ := h
      exact List.mem_cons_self _ _
    · simp only [smap_lookup, hp, if_false] at h
      exact List.mem_cons_of_mem _ (ih h)

/-- A map with pairwise-distinct keys: the invariant of every Python
dict. -/
def KeysNodup (m : SpecializationMap) : Prop := (m.map Prod.fst).Nodup

instance KeysNodup.instDecidable (m : SpecializationMap) :
    Decidable (KeysNodup m) :=
  inferInstanceAs (Decidable (m.map Prod.fst).Nodup)

theorem smap_lookup_of_mem {m : SpecializationMap} {v : String} {x : Formula}
    (hn : KeysNodup m) (h : (v, x) ∈ m) : smap_lookup m v = some x := by
  induction m with
  | nil => simp at h
  | cons p rest ih =>
    unfold KeysNodup at hn
    simp only [List.map_cons, List.nodup_cons] at hn
    rcases List.mem_cons.mp h with h1 | h1
    · subst h1
      simp [smap_lookup]
    · have hp : p.1 ≠ v := by
        intro he
        exact hn.1 (he ▸ (List.mem_map.mpr ⟨(v, x), h1, rfl⟩))
      simp only [smap_lookup, hp, if_false]
      exact ih hn.2 h1

/-! Lemmas about `InferenceRule._merge_specialization_maps`. -/

/-- `big` contains every binding of `small`. -/
def MapExtends (big small : SpecializationMap) : Prop :=
  ∀ v x, smap_lookup small v = some x → smap_lookup big v = some x

theorem MapExtends.refl (m : SpecializationMap) : MapExtends m m :=
  fun _ _ h => h

theorem MapExtends.trans {a b c : SpecializationMap}
    (h1 : MapExtends a b) (h2 : MapExtends b c) : MapExtends a c :=
  fun v x h => h1 v x (h2 v x h)

theorem merge_eq_some_extends {m1 m2 m : SpecializationMap}
    (h : InferenceRule.merge_specialization_maps (some m1) (some m2) = some m) :
    MapExtends m m1 ∧ MapExtends m m2 := by
  have h' : (if m1.all (fun p =>
      match smap_lookup m2 p.1 with
      | some q => decide (p.2 = q)
      | none => true) then
      some (m2 ++ m1.filter (fun p => (smap_lookup m2 p.1).isNone))
    else none) = some m := h
  by_cases hall : m1.all (fun p =>
      match smap_lookup m2 p.1 with
      | some q => decide (p.2 = q)
      | none => true) = true
  · rw [if_pos hall] at h'
    obtain ⟨rfl⟩ := Option.some.injEq _ _ ▸ h'
    constructor
    · intro v x hvx
      cases hm2 : smap_lookup m2 v with
      | some y =>
        have hmem : (v, x) ∈ m1 := smap_lookup_mem hvx
        have := (List.all_eq_true.mp hall) _ hmem
        rw [hm2] at this
        have hxy : x = y := of_decide_eq_true this
        subst hxy
        exact smap_lookup_append_of_some hm2
      | none =>
        have h2 : smap_lookup
            (m1.filter (fun p => (smap_lookup m2 p.1).isNone)) v =
            smap_lookup m1 v :=
          smap_lookup_filter_key (fun w => (smap_lookup m2 w).isNone)
            (by show (smap_lookup m2 v).isNone = true
                rw [hm2]
                rfl)
        rw [smap_lookup_append_of_none hm2, h2]
        exact hvx
    · intro v x hvx
      exact smap_lookup_append_of_some hvx
  · rw [if_neg hall] at h'
    cases h'

theorem merge_eq_none_iff {m1 m2 : SpecializationMap} (hn : KeysNodup m1) :
    InferenceRule.merge_specialization_maps (some m1) (some m2) = none ↔
    ∃ v x y, smap_lookup m1 v = some x ∧ smap_lookup m2 v = some y ∧ x ≠ y := by
  have hb : InferenceRule.merge_specialization_maps (some m1) (some m2) =
      (if m1.all (fun p =>
        match smap_lookup m2 p.1 with
        | some q => decide (p.2 = q)
        | none => true) then
        some (m2 ++ m1.filter (fun p => (smap_lookup m2 p.1).isNone))
      else none) := rfl
  rw [hb]
  constructor
  · intro h
    by_cases hall : m1.all (fun p =>
        match smap_lookup m2 p.1 with
        | some q => decide (p.2 = q)
        | none => true) = true
    · rw [if_pos hall] at h
      cases h
    · have := List.all_eq_true.not.mp hall
      push_neg at this
      obtain ⟨⟨v, x⟩, hmem, hfail⟩ := this
      refine ⟨v, x, ?_⟩
      cases hm2 : smap_lookup m2 v with
      | none =>
        exfalso
        apply hfail
        show (match smap_lookup m2 v with
          | some q => decide (x = q)
          | none => true) = true
        rw [hm2]
      | some y =>
        refine ⟨y, smap_lookup_of_mem hn hmem, rfl, ?_⟩
        intro hxy
        apply hfail
        show (match smap_lookup m2 v with
          | some q => decide (x = q)
          | none => true) = true
        rw [hm2]
        exact decide_eq_true hxy
  · rintro ⟨v, x, y, h1, h2, hxy⟩
    have hfail : ¬ m1.all (fun p =>
        match smap_lookup m2 p.1 with
        | some q => decide (p.2 = q)
        | none => true) = true := by
      intro hall
      have := (List.all_eq_true.mp hall) _ (smap_lookup_mem h1)
      rw [h2] at this
      exact hxy (of_decide_eq_true this)
    rw [if_neg hfail]

theorem merge_eq_some_lookup {m1 m2 m : SpecializationMap}
    (h : InferenceRule.merge_specialization_maps (some m1) (some m2) = some m)
    (v : String) :
    smap_lookup m v =
    (match smap_lookup m1 v with
      | some x => some x
      | none => smap_lookup m2 v) := by
  have h' : (if m1.all (fun p =>
      match smap_lookup m2 p.1 with
      | some q => decide (p.2 = q)
      | none => true) then
      some (m2 ++ m1.filter (fun p => (smap_lookup m2 p.1).isNone))
    else none) = some m := h
  by_cases hall : m1.all (fun p =>
      match smap_lookup m2 p.1 with
      | some q => decide (p.2 = q)
      | none => true) = true
  · rw [if_pos hall] at h'
    obtain ⟨rfl⟩ := Option.some.injEq _ _ ▸ h'
    cases hm2 : smap_lookup m2 v with
    | some y =>
      rw [smap_lookup_append_of_some hm2]
      cases hm1 : smap_lookup m1 v with
      | none => rfl
      | some x =>
        have := (List.all_eq_true.mp hall) _ (smap_lookup_mem hm1)
        rw [hm2] at this
        have hxy : x = y := of_decide_eq_true this
        rw [hxy]
    | none =>
      rw [smap_lookup_append_of_none hm2,
        smap_lookup_filter_key (fun w => (smap_lookup m2 w).isNone)
          (by show (smap_lookup m2 v).isNone = true
              rw [hm2]
              rfl)]
      cases hm1 : smap_lookup m1 v with
      | none => rfl
      | some x => rfl
  · rw [if_neg hall] at h'
    cases h'

theorem merge_none_left (om : Option SpecializationMap) :
    InferenceRule.merge_specialization_maps none om = none := rfl

theorem merge_none_right (om : Option SpecializationMap) :
    InferenceRule.merge_specialization_maps om none = none := by
  cases om <;> rfl

/-! Substitution lemmas. -/

theorem substitute_variables_congr {f : Formula} {m m' : SpecializationMap}
    (h : ∀ v ∈ f.variables, smap_lookup m v = smap_lookup m' v) :
    f.substitute_variables m = f.substitute_variables m' := by
  induction f with
  | var v =>
    have := h v (by simp [Formula.variables])
    simp [Formula.substitute_variables, this]
  | const b => rfl
  | neg f ih =>
    simp only [Formula.substitute_variables, Formula.neg.injEq]
    exact ih (fun v hv => h v (by simpa [Formula.variables] using hv))
  | binop op f g ihf ihg =>
    simp only [Formula.substitute_variables, Formula.binop.injEq]
    refine ⟨by trivial, ?_, ?_⟩
    · exact ihf (fun v hv => h v (by simp [Formula.variables]; exact Or.inl hv))
    · exact ihg (fun v hv => h v (by simp [Formula.variables]; exact Or.inr hv))

theorem formula_specialization_map_keys {g s : Formula} {m : SpecializationMap}
    (h : InferenceRule.formula_specialization_map g s = some m) :
    ∀ v ∈ g.variables, (smap_lookup m v).isSome := by
  induction g generalizing s m with
  | var w =>
    simp only [InferenceRule.formula_specialization_map,
      Option.some.injEq] at h
    subst h
    intro v hv
    simp only [Formula.variables, List.mem_singleton] at hv
    subst hv
    simp [smap_lookup]
  | const b =>
    intro v hv
    simp [Formula.variables] at hv
  | neg f ih =>
    cases s with
    | neg s1 => exact fun v hv => ih h v (by simpa [Formula.variables] using hv)
    | var w => cases h
    | const b => cases h
    | binop o a b => cases h
  | binop op f g ihf ihg =>
    cases s with
    | binop op2 s1 s2 =>
      simp only [InferenceRule.formula_specialization_map] at h
      by_cases hop : op = op2
      · rw [if_pos hop] at h
        cases h1 : InferenceRule.formula_specialization_map f s1 with
        | none => rw [h1, merge_none_left] at h; cases h
        | some mf =>
          cases h2 : InferenceRule.formula_specialization_map g s2 with
          | none => rw [h1, h2, merge_none_right] at h; cases h
          | some mg =>
            rw [h1, h2] at h
            obtain ⟨e1, e2⟩ := merge_eq_some_extends h
            intro v hv
            simp only [Formula.variables, List.mem_append] at hv
            rcases hv with hv | hv
            · cases hmf : smap_lookup mf v with
              | none =>
                exfalso
                have := ihf h1 v hv
                rw [hmf] at this
                cases this
              | some x => rw [e1 v x hmf]; rfl
            · cases hmg : smap_lookup mg v with
              | none =>
                exfalso
                have := ihg h2 v hv
                rw [hmg] at this
                cases this
              | some x => rw [e2 v x hmg]; rfl
      · rw [if_neg hop] at h
        cases h
    | var w => cases h
    | const b => cases h
    | neg a => cases h

theorem substitute_of_extends {g s : Formula} {mi m : SpecializationMap}
    (hg : InferenceRule.formula_specialization_map g s = some mi)
    (he : MapExtends m mi)
    (hs : g.substitute_variables mi = s) :
    g.substitute_variables m = s := by
  rw [← hs]
  apply substitute_variables_congr
  intro v hv
  have hks := formula_specialization_map_keys hg v hv
  cases hmi : smap_lookup mi v with
  | none => rw [hmi] at hks; cases hks
  | some x => rw [he v x hmi]

theorem formula_specialization_map_sound {g s : Formula}
    {m : SpecializationMap}
    (h : InferenceRule.formula_specialization_map g s = some m) :
    g.substitute_variables m = s := by
  induction g generalizing s m with
  | var w =>
    simp only [InferenceRule.formula_specialization_map,
      Option.some.injEq] at h
    subst h
    simp [Formula.substitute_variables, smap_lookup]
  | const b =>
    simp only [InferenceRule.formula_specialization_map] at h
    by_cases hs : s = Formula.const b
    · subst hs; rfl
    · rw [if_neg hs] at h; cases h
  | neg f ih =>
    cases s with
    | neg s1 =>
      have := ih h
      simp only [Formula.substitute_variables, Formula.neg.injEq]
      exact this
    | var w => cases h
    | const b => cases h
    | binop o a b => cases h
  | binop op f g ihf ihg =>
    cases s with
    | binop op2 s1 s2 =>
      simp only [InferenceRule.formula_specialization_map] at h
      by_cases hop : op = op2
      · rw [if_pos hop] at h
        subst hop
        cases h1 : InferenceRule.formula_specialization_map f s1 with
        | none => rw [h1, merge_none_left] at h; cases h
        | some mf =>
          cases h2 : InferenceRule.formula_specialization_map g s2 with
          | none => rw [h1, h2, merge_none_right] at h; cases h
          | some mg =>
            rw [h1, h2] at h
            obtain ⟨e1, e2⟩ := merge_eq_some_extends h
            simp only [Formula.substitute_variables, Formula.binop.injEq]
            refine ⟨by trivial, ?_, ?_⟩
            · exact substitute_of_extends h1 e1 (ihf h1)
            · exact substitute_of_extends h2 e2 (ihg h2)
      · rw [if_neg hop] at h
        cases h
    | var w => cases h
    | const b => cases h
    | neg a => cases h

theorem merge_fold_sound {l : List (Formula × Formula)}
    {acc : Option SpecializationMap} {m : SpecializationMap}
    (h : InferenceRule.merge_fold acc l = some m) :
    (∃ m0, acc = some m0 ∧ MapExtends m m0) ∧
    (∀ pr ∈ l, ∃ mi,
      InferenceRule.formula_specialization_map pr.1 pr.2 = some mi ∧
      MapExtends m mi) := by
  induction l generalizing acc with
  | nil =>
    refine ⟨⟨m, h, MapExtends.refl m⟩, ?_⟩
    intro pr hpr
    simp at hpr
  | cons p rest ih =>
    have h' : InferenceRule.merge_fold
        (InferenceRule.merge_specialization_maps acc
          (InferenceRule.formula_specialization_map p.1 p.2)) rest =
        some m := h
    obtain ⟨⟨m', hm', hext'⟩, hrest⟩ := ih h'
    cases hacc : acc with
    | none => rw [hacc, merge_none_left] at hm'; cases hm'
    | some m0 =>
      cases hp : InferenceRule.formula_specialization_map p.1 p.2 with
      | none => rw [hacc, hp, merge_none_right] at hm'; cases hm'
      | some mi =>
        rw [hacc, hp] at hm'
        obtain ⟨e0, ei⟩ := merge_eq_some_extends hm'
        refine ⟨⟨m0, rfl, MapExtends.trans hext' e0⟩, ?_⟩
        intro pr hpr
        rcases List.mem_cons.mp hpr with hpr | hpr
        · subst hpr
          exact ⟨mi, hp, MapExtends.trans hext' ei⟩
        · exact hrest pr hpr

theorem map_subst_eq_of_zip {m : SpecializationMap} :
    ∀ (l1 l2 : List Formula), l1.length = l2.length →
    (∀ pr ∈ l1.zip l2, ∃ mi,
      InferenceRule.formula_specialization_map pr.1 pr.2 = some mi ∧
      MapExtends m mi) →
    l1.map (fun f => f.substitute_variables m) = l2 := by
  intro l1
  induction l1 with
  | nil =>
    intro l2 hlen _
    cases l2 with
    | nil => rfl
    | cons b rest2 => simp at hlen
  | cons a rest ih =>
    intro l2 hlen hall
    cases l2 with
    | nil => simp at hlen
    | cons b rest2 =>
      have hz : (a :: rest).zip (b :: rest2) = (a, b) :: rest.zip rest2 := rfl
      obtain ⟨mi, hmi, hexti⟩ := hall (a, b)
        (by rw [hz]; exact List.mem_cons_self _ _)
      have ha : a.substitute_variables m = b :=
        substitute_of_extends hmi hexti (formula_specialization_map_sound hmi)
      have hrest : rest.map (fun f => f.substitute_variables m) = rest2 :=
        ih rest2 (by simpa using hlen)
          (fun pr hpr => hall pr (by rw [hz]; exact List.mem_cons_of_mem _ hpr))
      rw [List.map_cons, ha, hrest]

theorem specialization_map_sound {r s : InferenceRule}
    {m : SpecializationMap}
    (h : r.specialization_map s = some m) :
    r.specialize m = s := by
  unfold InferenceRule.specialization_map at h
  by_cases hlen : r.assumptions.length = s.assumptions.length
  · rw [if_pos hlen] at h
    obtain ⟨⟨m0, hm0, hext0⟩, hzip⟩ := merge_fold_sound h
    have hconcl : r.conclusion.substitute_variables m = s.conclusion :=
      substitute_of_extends hm0 hext0 (formula_specialization_map_sound hm0)
    have hassum : r.assumptions.map
        (fun f => f.substitute_variables m) = s.assumptions :=
      map_subst_eq_of_zip r.assumptions s.assumptions hlen
        (fun pr hpr => hzip pr hpr)
    show InferenceRule.mk _ _ = s
    rw [hassum, hconcl]
  · rw [if_neg hlen] at h
    cases h

/-! Completeness: matching a formula against its own specialization
succeeds, with every binding given by the specializing map. -/

/-- The total valuation a map induces on variable names. -/
def apply_map (σ : SpecializationMap) (v : String) : Formula :=
  (smap_lookup σ v).getD (Formula.var v)

/-- Every entry of `m` is a binding the valuation of `σ` prescribes. -/
def AgreesEntries (σ m : SpecializationMap) : Prop :=
  ∀ pr ∈ m, pr.2 = apply_map σ pr.1

theorem merge_complete {σ m1 m2 : SpecializationMap}
    (h1 : AgreesEntries σ m1) (h2 : AgreesEntries σ m2) :
    ∃ m, InferenceRule.merge_specialization_maps (some m1) (some m2) = some m ∧
      AgreesEntries σ m := by
  have hall : m1.all (fun p =>
      match smap_lookup m2 p.1 with
      | some q => decide (p.2 = q)
      | none => true) = true := by
    apply List.all_eq_true.mpr
    intro pr hpr
    cases hm2 : smap_lookup m2 pr.1 with
    | none => rfl
    | some q =>
      show decide (pr.2 = q) = true
      apply decide_eq_true
      rw [h1 pr hpr]
      exact (h2 (pr.1, q) (smap_lookup_mem hm2)).symm
  refine ⟨m2 ++ m1.filter (fun p => (smap_lookup m2 p.1).isNone), ?_, ?_⟩
  · show (if m1.all (fun p =>
        match smap_lookup m2 p.1 with
        | some q => decide (p.2 = q)
        | none => true) then
        some (m2 ++ m1.filter (fun p => (smap_lookup m2 p.1).isNone))
      else none) = _
    rw [if_pos hall]
  · intro pr hpr
    rcases List.mem_append.mp hpr with hpr | hpr
    · exact h2 pr hpr
    · exact h1 pr (List.mem_of_mem_filter hpr)

theorem formula_specialization_map_complete (σ : SpecializationMap)
    (g : Formula) :
    ∃ m, InferenceRule.formula_specialization_map g
        (g.substitute_variables σ) = some m ∧ AgreesEntries σ m := by
  induction g with
  | var v =>
    refine ⟨[(v, (Formula.var v).substitute_variables σ)], rfl, ?_⟩
    intro pr hpr
    simp only [List.mem_singleton] at hpr
    subst hpr
    rfl
  | const b =>
    refine ⟨[], ?_, ?_⟩
    · show (if Formula.const b = Formula.const b then some [] else none) = _
      rw [if_pos rfl]
    · intro pr hpr
      simp at hpr
  | neg f ih =>
    obtain ⟨m, hm, ha⟩ := ih
    exact ⟨m, hm, ha⟩
  | binop op f g ihf ihg =>
    obtain ⟨mf, hmf, haf⟩ := ihf
    obtain ⟨mg, hmg, hag⟩ := ihg
    obtain ⟨m, hm, ha⟩ := merge_complete haf hag
    refine ⟨m, ?_, ha⟩
    show (if op = op then
        InferenceRule.merge_specialization_maps
          (InferenceRule.formula_specialization_map f
            (f.substitute_variables σ))
          (InferenceRule.formula_specialization_map g
            (g.substitute_variables σ))
      else none) = some m
    rw [if_pos rfl, hmf, hmg]
    exact hm

theorem merge_fold_complete {σ : SpecializationMap}
    {l : List (Formula × Formula)} {macc : SpecializationMap}
    (hacc : AgreesEntries σ macc)
    (hl : ∀ pr ∈ l, pr.2 = pr.1.substitute_variables σ) :
    ∃ m, InferenceRule.merge_fold (some macc) l = some m ∧
      AgreesEntries σ m := by
  induction l generalizing macc with
  | nil => exact ⟨macc, rfl, hacc⟩
  | cons p rest ih =>
    obtain ⟨mp, hmp, hap⟩ := formula_specialization_map_complete σ p.1
    obtain ⟨m', hm', ha'⟩ := merge_complete hacc hap
    have hp2 : p.2 = p.1.substitute_variables σ := hl p (List.mem_cons_self _ _)
    have step : InferenceRule.merge_fold (some macc) (p :: rest) =
        InferenceRule.merge_fold
          (InferenceRule.merge_specialization_maps (some macc)
            (InferenceRule.formula_specialization_map p.1 p.2)) rest := rfl
    rw [step, hp2, hmp, hm']
    exact ih ha' (fun pr hpr => hl pr (List.mem_cons_of_mem _ hpr))

theorem zip_map_self_snd {f : Formula → Formula} :
    ∀ (l : List Formula), ∀ pr ∈ l.zip (l.map f), pr.2 = f pr.1 := by
  intro l
  induction l with
  | nil => intro pr hpr; simp at hpr
  | cons a rest ih =>
    intro pr hpr
    have hc : (a :: rest).zip ((a :: rest).map f) =
        (a, f a) :: rest.zip (rest.map f) := rfl
    rw [hc] at hpr
    rcases List.mem_cons.mp hpr with h | h
    · subst h; rfl
    · exact ih pr h

theorem specialization_map_complete (r : InferenceRule)
    (σ : SpecializationMap) :
    ∃ m, r.specialization_map (r.specialize σ) = some m ∧
      AgreesEntries σ m := by
  obtain ⟨mc, hmc, hac⟩ := formula_specialization_map_complete σ r.conclusion
  have hzip : ∀ pr ∈ r.assumptions.zip
      (r.assumptions.map (fun f => f.substitute_variables σ)),
      pr.2 = pr.1.substitute_variables σ :=
    zip_map_self_snd r.assumptions
  obtain ⟨m, hm, ha⟩ := merge_fold_complete hac hzip
  refine ⟨m, ?_, ha⟩
  unfold InferenceRule.specialization_map
  have hlen : r.assumptions.length = (r.specialize σ).assumptions.length := by
    show r.assumptions.length =
      (r.assumptions.map (fun f => f.substitute_variables σ)).length
    rw [List.length_map]
  rw [if_pos hlen]
  show InferenceRule.merge_fold
      (InferenceRule.formula_specialization_map r.conclusion
        (r.conclusion.substitute_variables σ))
      (r.assumptions.zip
        (r.assumptions.map (fun f => f.substitute_variables σ))) = some m
  rw [hmc]
  exact hm

theorem is_specialization_of_specialize (r : InferenceRule)
    (σ : SpecializationMap) :
    (r.specialize σ).is_specialization_of r = true := by
  obtain ⟨m, hm, _⟩ := specialization_map_complete r σ
  unfold InferenceRule.is_specialization_of
  rw [hm]
  rfl

/-! Composition of substitutions. -/

/-- The composite map: apply `σ2` to `σ1`'s values, then append the
bindings of `σ2` whose keys `σ1` does not bind. -/
def scomp (σ1 σ2 : SpecializationMap) : SpecializationMap :=
  σ1.map (fun pr => (pr.1, pr.2.substitute_variables σ2)) ++
  σ2.filter (fun pr => (smap_lookup σ1 pr.1).isNone)

theorem smap_lookup_map_subst (σ σ2 : SpecializationMap) (v : String) :
    smap_lookup (σ.map (fun pr => (pr.1, pr.2.substitute_variables σ2))) v =
    (smap_lookup σ v).map (fun x => x.substitute_variables σ2) := by
  induction σ with
  | nil => rfl
  | cons p rest ih =>
    by_cases hp : p.1 = v <;> simp [smap_lookup, hp, ih]

theorem smap_lookup_scomp (σ1 σ2 : SpecializationMap) (v : String) :
    smap_lookup (scomp σ1 σ2) v =
    (match smap_lookup σ1 v with
      | some x => some (x.substitute_variables σ2)
      | none => smap_lookup σ2 v) := by
  unfold scomp
  cases h1 : smap_lookup σ1 v with
  | some x =>
    have : smap_lookup
        (σ1.map (fun pr => (pr.1, pr.2.substitute_variables σ2))) v =
        some (x.substitute_variables σ2) := by
      rw [smap_lookup_map_subst, h1]
      rfl
    rw [smap_lookup_append_of_some this]
  | none =>
    have hnone : smap_lookup
        (σ1.map (fun pr => (pr.1, pr.2.substitute_variables σ2))) v =
        none := by
      rw [smap_lookup_map_subst, h1]
      rfl
    rw [smap_lookup_append_of_none hnone,
      smap_lookup_filter_key (fun w => (smap_lookup σ1 w).isNone)
        (by show (smap_lookup σ1 v).isNone = true
            rw [h1]
            rfl)]

theorem substitute_substitute (f : Formula) (σ1 σ2 : SpecializationMap) :
    (f.substitute_variables σ1).substitute_variables σ2 =
    f.substitute_variables (scomp σ1 σ2) := by
  induction f with
  | var v =>
    show ((smap_lookup σ1 v).getD (Formula.var v)).substitute_variables σ2 =
      (smap_lookup (scomp σ1 σ2) v).getD (Formula.var v)
    rw [smap_lookup_scomp]
    cases h1 : smap_lookup σ1 v with
    | some x => rfl
    | none => rfl
  | const b => rfl
  | neg f ih =>
    show Formula.neg _ = Formula.neg _
    rw [ih]
  | binop op f g ihf ihg =>
    show Formula.binop op _ _ = Formula.binop op _ _
    rw [ihf, ihg]

theorem specialize_specialize (r : InferenceRule)
    (σ1 σ2 : SpecializationMap) :
    (r.specialize σ1).specialize σ2 = r.specialize (scomp σ1 σ2) := by
  unfold InferenceRule.specialize
  simp only [List.map_map, InferenceRule.mk.injEq]
  constructor
  · apply List.map_congr_left
    intro f _
    exact substitute_substitute f σ1 σ2
  · exact substitute_substitute r.conclusion σ1 σ2

/-- Specialization is closed under further specialization: the key step
that per-line validity survives `prove_specialization`'s rewriting. -/
theorem is_specialization_of_closed {s r : InferenceRule}
    (h : s.is_specialization_of r = true) (σ : SpecializationMap) :
    (s.specialize σ).is_specialization_of r = true := by
  unfold InferenceRule.is_specialization_of at h
  cases hm : r.specialization_map s with
  | none => rw [hm] at h; cases h
  | some mi =>
    have hs : r.specialize mi = s := specialization_map_sound hm
    rw [← hs, specialize_specialize]
    exact is_specialization_of_specialize r (scomp mi σ)

/-! Characterizations of line and proof validity. -/

theorem is_line_valid_assumption {p : Proof} {i : Nat}
    (h : (p.lineAt i).justification = none) :
    p.is_line_valid i = true ↔
      (p.lineAt i).formula ∈ p.statement.assumptions := by
  unfold Proof.is_line_valid
  rw [h]
  exact decide_eq_true_iff

theorem is_line_valid_rule {p : Proof} {i : Nat} {r : InferenceRule}
    {js : List Nat} (h : (p.lineAt i).justification = some (r, js)) :
    p.is_line_valid i = true ↔
      ((∀ j ∈ js, j < i) ∧ r ∈ p.rules ∧
       (InferenceRule.mk (js.map (fun j => (p.lineAt j).formula))
          (p.lineAt i).formula).is_specialization_of r = true) := by
  unfold Proof.is_line_valid Proof.rule_for_line
  simp only [h]
  by_cases hfwd : (js.any fun j => decide (i ≤ j)) = true
  · rw [if_pos hfwd]
    simp only [Bool.false_eq_true, false_iff]
    intro ⟨hlt, _, _⟩
    obtain ⟨j, hj, hij⟩ := List.any_eq_true.mp hfwd
    have hij2 : i ≤ j := of_decide_eq_true hij
    exact absurd (hlt j hj) (by omega)
  · rw [if_neg hfwd]
    have hlt : ∀ j ∈ js, j < i := by
      intro j hj
      by_contra hc
      exact hfwd (List.any_eq_true.mpr ⟨j, hj, decide_eq_true (by omega)⟩)
    by_cases hr : r ∈ p.rules
    · rw [if_pos hr]
      constructor
      · intro hv
        exact ⟨hlt, hr, hv⟩
      · intro ⟨_, _, hv⟩
        exact hv
    · rw [if_neg hr]
      simp only [Bool.false_eq_true, false_iff]
      intro ⟨_, hr', _⟩
      exact hr hr'

theorem is_valid_iff (p : Proof) :
    p.is_valid = true ↔
      (p.lines ≠ [] ∧ (∀ i < p.lines.length, p.is_line_valid i = true) ∧
       (p.lineAt (p.lines.length - 1)).formula = p.statement.conclusion) := by
  unfold Proof.is_valid
  by_cases hlen : p.lines.length = 0
  · rw [if_pos hlen]
    simp only [Bool.false_eq_true, false_iff]
    intro ⟨hne, _, _⟩
    exact hne (List.length_eq_zero.mp hlen)
  · rw [if_neg hlen]
    rw [Bool.and_eq_true, List.all_eq_true, decide_eq_true_iff]
    constructor
    · intro ⟨hall, hlast⟩
      refine ⟨fun he => hlen (by rw [he]; rfl), ?_, hlast⟩
      intro i hi
      exact hall i (List.mem_range.mpr hi)
    · intro ⟨_, hall, hlast⟩
      exact ⟨fun i hi => hall i (List.mem_range.mp hi), hlast⟩

/-! `prove_specialization` (C1). -/

theorem prove_specialization_lineAt {p : Proof} {s : InferenceRule}
    {m : SpecializationMap}
    (hm : p.statement.specialization_map s = some m)
    {i : Nat} (hi : i < p.lines.length) :
    (prove_specialization p s).lineAt i =
      ⟨(p.lineAt i).formula.substitute_variables m,
       (p.lineAt i).justification⟩ := by
  unfold prove_specialization Proof.lineAt
  simp only [hm, Option.getD_some]
  rw [List.getD_eq_getElem?_getD, List.getD_eq_getElem?_getD,
    List.getElem?_map, List.getElem?_eq_getElem hi]
  rfl

theorem prove_specialization_length (p : Proof) (s : InferenceRule) :
    (prove_specialization p s).lines.length = p.lines.length := by
  unfold prove_specialization
  exact List.length_map _ _

theorem prove_specialization_valid {p : Proof} {s : InferenceRule}
    (hp : p.is_valid = true)
    (hs : s.is_specialization_of p.statement = true) :
    (prove_specialization p s).is_valid = true := by
  cases hm : p.statement.specialization_map s with
  | none =>
    unfold InferenceRule.is_specialization_of at hs
    rw [hm] at hs
    cases hs
  | some m =>
    have hspec : p.statement.specialize m = s := specialization_map_sound hm
    obtain ⟨hne, hall, hlast⟩ := (is_valid_iff p).mp hp
    apply (is_valid_iff (prove_specialization p s)).mpr
    have hlen := prove_specialization_length p s
    refine ⟨?_, ?_, ?_⟩
    · intro he
      apply hne
      have : (prove_specialization p s).lines.length = 0 := by rw [he]; rfl
      rw [hlen] at this
      exact List.length_eq_zero.mp this
    · intro i hi
      rw [hlen] at hi
      have hline := prove_specialization_lineAt hm hi
      cases hj : (p.lineAt i).justification with
      | none =>
        apply (@is_line_valid_assumption (prove_specialization p s) i
          (by rw [hline, hj])).mpr
        rw [hline]
        show (p.lineAt i).formula.substitute_variables m ∈ s.assumptions
        have hmem := (is_line_valid_assumption hj).mp (hall i hi)
        rw [← hspec]
        show _ ∈ p.statement.assumptions.map
          (fun f => f.substitute_variables m)
        exact List.mem_map_of_mem _ hmem
      | some rjs =>
        obtain ⟨r, js⟩ := rjs
        obtain ⟨hlt, hr, hrule⟩ := (is_line_valid_rule hj).mp (hall i hi)
        apply (@is_line_valid_rule (prove_specialization p s) i r js
          (by rw [hline, hj])).mpr
        refine ⟨hlt, hr, ?_⟩
        have hforms : js.map (fun j => ((prove_specialization p s).lineAt j).formula) =
            (js.map (fun j => (p.lineAt j).formula)).map
              (fun f => f.substitute_variables m) := by
          rw [List.map_map]
          apply List.map_congr_left
          intro j hj2
          have hji : j < p.lines.length := lt_trans (hlt j hj2) hi
          rw [prove_specialization_lineAt hm hji]
          rfl
        rw [hline, hforms]
        show (InferenceRule.specialize
          ⟨js.map (fun j => (p.lineAt j).formula), (p.lineAt i).formula⟩
          m).is_specialization_of r = true
        exact is_specialization_of_closed hrule m
    · rw [hlen]
      have hi : p.lines.length - 1 < p.lines.length := by
        have : p.lines.length ≠ 0 := fun h => hne (List.length_eq_zero.mp h)
        omega
      rw [prove_specialization_lineAt hm hi]
      show (p.lineAt (p.lines.length - 1)).formula.substitute_variables m =
        s.conclusion
      rw [hlast, ← hspec]
      rfl

/-! Character arithmetic for the name conversions. -/

theorem char_toNat_ofNat {n : Nat} (h : n < 55296) :
    (Char.ofNat n).toNat = n := by
  have hv : n.isValidChar := Or.inl h
  unfold Char.ofNat
  rw [dif_pos hv]
  rfl

theorem char_ofNat_toNat {c : Char} (h : c.toNat < 55296) :
    Char.ofNat c.toNat = c := by
  have hv : c.toNat.isValidChar := Or.inl h
  unfold Char.ofNat
  rw [dif_pos hv]
  apply Char.eq_of_val_eq
  apply UInt32.eq_of_toBitVec_eq
  apply BitVec.eq_of_toNat_eq
  rfl

theorem char_toLower_toUpper {c : Char} (h1 : 97 ≤ c.toNat)
    (h2 : c.toNat ≤ 122) :
    (c.toUpper).toLower = c := by
  have hup : c.toUpper = Char.ofNat (c.toNat - 32) := by
    unfold Char.toUpper
    rw [if_pos ⟨h1, h2⟩]
  have hn : (Char.ofNat (c.toNat - 32)).toNat = c.toNat - 32 :=
    char_toNat_ofNat (by omega)
  rw [hup]
  unfold Char.toLower
  rw [hn, if_pos (by omega), show c.toNat - 32 + 32 = c.toNat by omega]
  exact char_ofNat_toNat (by omega)

/-! Sample objects used by the witnesses. -/

/-- A one-line proof of `p ⊢ p` by assumption. -/
def sample_identity_proof : Proof :=
  ⟨⟨[Formula.var "p"], Formula.var "p"⟩, ∅, [⟨Formula.var "p", none⟩]⟩

/-- The rule `q ⊢ q`, a specialization of `p ⊢ p`. -/
def sample_target : InferenceRule := ⟨[Formula.var "q"], Formula.var "q"⟩

/-- The axiom `⊢ (p→p)`. -/
def sample_base_rule : InferenceRule :=
  ⟨[], Formula.binop "->" (Formula.var "p") (Formula.var "p")⟩

/-- The lemma rule `⊢ (q→q)`. -/
def sample_lemma_statement : InferenceRule :=
  ⟨[], Formula.binop "->" (Formula.var "q") (Formula.var "q")⟩

/-- A one-line proof of the lemma rule from the axiom. -/
def sample_lemma_proof : Proof :=
  ⟨sample_lemma_statement, {sample_base_rule},
   [⟨Formula.binop "->" (Formula.var "q") (Formula.var "q"),
     some (sample_base_rule, [])⟩]⟩

/-- A one-line proof of `⊢ (s→s)` that uses the lemma rule. -/
def sample_main_proof : Proof :=
  ⟨⟨[], Formula.binop "->" (Formula.var "s") (Formula.var "s")⟩,
   {sample_lemma_statement},
   [⟨Formula.binop "->" (Formula.var "s") (Formula.var "s"),
     some (sample_lemma_statement, [])⟩]⟩

/-- A proof whose only line does not conclude its statement. -/
def sample_bad_proof : Proof :=
  ⟨⟨[Formula.var "p"], Formula.var "q"⟩, ∅, [⟨Formula.var "p", none⟩]⟩

/-- C1: for every valid proof `P` and every rule `S` that is a
specialization of `P.statement`, `prove_specialization P S` is a valid
proof with statement `S`, the same allowed rules and the same number of
lines, each line keeping its rule reference and justification numbers and
carrying the original formula rewritten under
`P.statement.specialization_map S`. -/
theorem c1_prove_specialization_correct (P : Proof) (S : InferenceRule)
    (hP : P.is_valid = true)
    (hS : S.is_specialization_of P.statement = true) :
    ∃ m, P.statement.specialization_map S = some m ∧
      (prove_specialization P S).is_valid = true ∧
      (prove_specialization P S).statement = S ∧
      (prove_specialization P S).rules = P.rules ∧
      (prove_specialization P S).lines.length = P.lines.length ∧
      (∀ i < P.lines.length,
        ((prove_specialization P S).lineAt i).justification =
          (P.lineAt i).justification ∧
        ((prove_specialization P S).lineAt i).formula =
          (P.lineAt i).formula.substitute_variables m) := by
  cases hm : P.statement.specialization_map S with
  | none =>
    unfold InferenceRule.is_specialization_of at hS
    rw [hm] at hS
    cases hS
  | some m =>
    refine ⟨m, rfl, prove_specialization_valid hP hS, rfl, rfl,
      prove_specialization_length P S, ?_⟩
    intro i hi
    rw [prove_specialization_lineAt hm hi]
    exact ⟨rfl, rfl⟩

/-- Witness for C1 at the sample proof of `p ⊢ p` and target `q ⊢ q`. -/
theorem c1_witness :
    ∃ m, sample_identity_proof.statement.specialization_map sample_target =
        some m ∧
      (prove_specialization sample_identity_proof sample_target).is_valid =
        true ∧
      (prove_specialization sample_identity_proof sample_target).statement =
        sample_target ∧
      (prove_specialization sample_identity_proof sample_target).rules =
        sample_identity_proof.rules ∧
      (prove_specialization sample_identity_proof sample_target).lines.length =
        sample_identity_proof.lines.length ∧
      (∀ i < sample_identity_proof.lines.length,
        ((prove_specialization sample_identity_proof sample_target).lineAt
            i).justification =
          (sample_identity_proof.lineAt i).justification ∧
        ((prove_specialization sample_identity_proof sample_target).lineAt
            i).formula =
          (sample_identity_proof.lineAt i).formula.substitute_variables m) :=
  c1_prove_specialization_correct sample_identity_proof sample_target
    (by decide) (by decide)

/-- C2: whenever `R.specialization_map S` returns a map `m`,
`R.specialize m = S`. -/
theorem c2_specialize_specialization_map (R S : InferenceRule)
    (m : SpecializationMap) (h : R.specialization_map S = some m) :
    R.specialize m = S :=
  specialization_map_sound h

/-- Witness for C2: `p ⊢ p` against `¬q ⊢ ¬q`. -/
theorem c2_witness :
    (InferenceRule.mk [Formula.var "p"] (Formula.var "p")).specialize
      [("p", Formula.neg (Formula.var "q"))] =
    InferenceRule.mk [Formula.neg (Formula.var "q")]
      (Formula.neg (Formula.var "q")) :=
  c2_specialize_specialization_map _ _ _ (by decide)

/-- C4: `is_valid` is `false` on the zero-line proof; on a nonempty proof
it is `true` iff every line is valid and the last formula equals the
statement's conclusion; in particular it is `false` when the last formula
differs from the conclusion, and `false` when some derivation line cites
a justification number not strictly below its own number. -/
theorem c4_is_valid_characterization (p : Proof) :
    (p.lines = [] → p.is_valid = false) ∧
    (p.lines ≠ [] →
      (p.is_valid = true ↔
        ((∀ i < p.lines.length, p.is_line_valid i = true) ∧
         (p.lineAt (p.lines.length - 1)).formula =
           p.statement.conclusion))) ∧
    ((p.lineAt (p.lines.length - 1)).formula ≠ p.statement.conclusion →
      p.is_valid = false) ∧
    (∀ i < p.lines.length, ∀ r js,
      (p.lineAt i).justification = some (r, js) →
      ∀ j ∈ js, i ≤ j → p.is_valid = false) := by
  refine ⟨?_, ?_, ?_, ?_⟩
  · intro he
    unfold Proof.is_valid
    rw [he]
    rfl
  · intro hne
    rw [is_valid_iff]
    constructor
    · intro ⟨_, h2, h3⟩
      exact ⟨h2, h3⟩
    · intro ⟨h2, h3⟩
      exact ⟨hne, h2, h3⟩
  · intro hne
    cases hv : p.is_valid with
    | false => rfl
    | true =>
      obtain ⟨_, _, hlast⟩ := (is_valid_iff p).mp hv
      exact absurd hlast hne
  · intro i hi r js hj j hjs hij
    cases hv : p.is_valid with
    | false => rfl
    | true =>
      obtain ⟨_, hall, _⟩ := (is_valid_iff p).mp hv
      obtain ⟨hlt, _, _⟩ := (is_line_valid_rule hj).mp (hall i hi)
      exact absurd (hlt j hjs) (by omega)

/-- Witness for C4 at a proof whose last formula misses its conclusion. -/
theorem c4_witness : sample_bad_proof.is_valid = false :=
  (c4_is_valid_characterization sample_bad_proof).2.2.1 (by decide)

/-- C5: for an in-range line number, an assumption line is valid iff its
formula is one of the statement's assumptions, and a derivation line is
valid iff all its justification numbers are strictly smaller, its rule is
allowed, and the rule `rule_for_line` reconstructs is a specialization of
the declared rule. -/
theorem c5_is_line_valid_characterization (p : Proof) (i : Nat)
    (hi : i < p.lines.length) :
    ((p.lineAt i).justification = none →
      (p.is_line_valid i = true ↔
        (p.lineAt i).formula ∈ p.statement.assumptions)) ∧
    (∀ r js, (p.lineAt i).justification = some (r, js) →
      (p.is_line_valid i = true ↔
        ((∀ j ∈ js, j < i) ∧ r ∈ p.rules ∧
         ∃ rr, p.rule_for_line i = some rr ∧
           rr.is_specialization_of r = true))) := by
  constructor
  · intro hj
    exact is_line_valid_assumption hj
  · intro r js hj
    have hrfl : p.rule_for_line i =
        some ⟨js.map (fun j => (p.lineAt j).formula),
              (p.lineAt i).formula⟩ := by
      unfold Proof.rule_for_line
      rw [hj]
    rw [is_line_valid_rule hj]
    constructor
    · intro ⟨h1, h2, h3⟩
      exact ⟨h1, h2, _, hrfl, h3⟩
    · intro ⟨h1, h2, rr, hrr, h3⟩
      rw [hrfl] at hrr
      obtain ⟨rfl⟩ := Option.some.injEq _ _ ▸ hrr
      exact ⟨h1, h2, h3⟩

/-- Witness for C5 at the lemma proof's derivation line. -/
theorem c5_witness :
    (∀ j ∈ ([] : List Nat), j < 0) ∧
    sample_base_rule ∈ sample_lemma_proof.rules ∧
    ∃ rr, sample_lemma_proof.rule_for_line 0 = some rr ∧
      rr.is_specialization_of sample_base_rule = true :=
  ((c5_is_line_valid_characterization sample_lemma_proof 0 (by decide)).2
    sample_base_rule [] (by decide)).mp (by decide)

/-- C6: merging fails iff an input is the failure value or some key is
bound by both maps to different formulas; a successful merge looks up as
the key-wise union of the two maps. -/
theorem c6_merge_specialization_maps_characterization
    (m1 m2 : SpecializationMap) (h1 : KeysNodup m1) (h2 : KeysNodup m2) :
    (∀ om, InferenceRule.merge_specialization_maps none om = none) ∧
    (∀ om, InferenceRule.merge_specialization_maps om none = none) ∧
    (InferenceRule.merge_specialization_maps (some m1) (some m2) = none ↔
      ∃ v x y, smap_lookup m1 v = some x ∧ smap_lookup m2 v = some y ∧
        x ≠ y) ∧
    (∀ m, InferenceRule.merge_specialization_maps (some m1) (some m2) =
        some m →
      ∀ v, smap_lookup m v =
        (match smap_lookup m1 v with
          | some x => some x
          | none => smap_lookup m2 v)) :=
  ⟨merge_none_left, merge_none_right, merge_eq_none_iff h1,
   fun _ hm v => merge_eq_some_lookup hm v⟩

/-- Witness for C6 at two maps that conflict on `p`. -/
theorem c6_witness :
    InferenceRule.merge_specialization_maps
      (some [("p", Formula.var "q")]) (some [("p", Formula.var "r")]) =
      none :=
  ((c6_merge_specialization_maps_characterization
      [("p", Formula.var "q")] [("p", Formula.var "r")]
      (by decide) (by decide)).2.2.1).mpr
    ⟨"p", Formula.var "q", Formula.var "r", by decide, by decide, by decide⟩

/-- C10: `function_name_to_relation_name` capitalizes the first letter
(mapping `"plus"` to `"Plus"`), and `relation_name_to_function_name`
undoes it on every valid function name. -/
theorem c10_function_relation_name_round_trip :
    function_name_to_relation_name "plus" = "Plus" ∧
    ∀ f : String, is_function f = true →
      relation_name_to_function_name (function_name_to_relation_name f) =
        f := by
  refine ⟨by decide, ?_⟩
  intro f hf
  obtain ⟨d⟩ := f
  cases d with
  | nil => cases hf
  | cons c rest =>
    have hand : (decide (97 ≤ c.toNat) && decide (c.toNat ≤ 122)) = true := hf
    rw [Bool.and_eq_true] at hand
    have h1 : 97 ≤ c.toNat := of_decide_eq_true hand.1
    have h2 : c.toNat ≤ 122 := of_decide_eq_true hand.2
    show String.mk (c.toUpper.toLower :: rest) = String.mk (c :: rest)
    rw [char_toLower_toUpper h1 h2]

/-- Witness for C10 at `"plus"`. -/
theorem c10_witness :
    relation_name_to_function_name
      (function_name_to_relation_name "plus") = "plus" :=
  c10_function_relation_name_round_trip.2 "plus" (by decide)

/-! Structure of the splice (C8). -/

theorem splice_lemma_lines_shape (ta : List Formula) (jn : List Nat) :
    ∀ (ls : List Proof.Line) (i : Nat) (st : SpliceState),
    ∃ suffix : List Proof.Line,
      (splice_lemma_lines ta jn i ls st).new_lines =
        st.new_lines ++ suffix ∧
      suffix.length = ls.countP (fun l => l.justification.isSome) ∧
      (splice_lemma_lines ta jn i ls st).acount =
        st.acount + ls.countP (fun l => l.justification.isNone) ∧
      (∀ l' ∈ suffix, ∃ l0 ∈ ls,
        l'.formula = l0.formula ∧ l'.rule = l0.rule) := by
  intro ls
  induction ls with
  | nil =>
    intro i st
    refine ⟨[], by simp [splice_lemma_lines], by simp, ?_, by simp⟩
    simp [splice_lemma_lines]
  | cons l rest ih =>
    intro i st
    cases hj : l.justification with
    | none =>
      obtain ⟨suffix, h1, h2, h3, h4⟩ := ih (i + 1)
        ⟨st.new_lines,
         st.subs ++ [(i, jn.getD (index_of_formula ta l.formula) 0)],
         st.acount + 1⟩
      have hstep : splice_lemma_lines ta jn i (l :: rest) st =
          splice_lemma_lines ta jn (i + 1) rest
            ⟨st.new_lines,
             st.subs ++ [(i, jn.getD (index_of_formula ta l.formula) 0)],
             st.acount + 1⟩ := by
        simp only [splice_lemma_lines, hj]
      refine ⟨suffix, ?_, ?_, ?_, ?_⟩
      · rw [hstep]
        exact h1
      · rw [h2, List.countP_cons_of_neg]
        simp [hj]
      · rw [hstep, h3, List.countP_cons_of_pos _ _ (by simp [hj])]
        dsimp only
        omega
      · intro l' hl'
        obtain ⟨l0, hl0, he⟩ := h4 l' hl'
        exact ⟨l0, List.mem_cons_of_mem _ hl0, he⟩
    | some rjs =>
      obtain ⟨r, js⟩ := rjs
      obtain ⟨suffix, h1, h2, h3, h4⟩ := ih (i + 1)
        ⟨st.new_lines ++
          [⟨l.formula, some (r, js.map (fun j => (subs_lookup st.subs j).getD 0))⟩],
         st.subs ++ [(i, st.new_lines.length)], st.acount⟩
      have hstep : splice_lemma_lines ta jn i (l :: rest) st =
          splice_lemma_lines ta jn (i + 1) rest
            ⟨st.new_lines ++
              [⟨l.formula,
                some (r, js.map (fun j => (subs_lookup st.subs j).getD 0))⟩],
             st.subs ++ [(i, st.new_lines.length)], st.acount⟩ := by
        simp only [splice_lemma_lines, hj]
      refine ⟨⟨l.formula,
          some (r, js.map (fun j => (subs_lookup st.subs j).getD 0))⟩ ::
            suffix, ?_, ?_, ?_, ?_⟩
      · rw [hstep, h1, List.append_assoc, List.singleton_append]
      · rw [List.length_cons, h2, List.countP_cons_of_pos _ _ (by simp [hj])]
      · rw [hstep, h3, List.countP_cons_of_neg _ _ (by simp [hj])]
      · intro l' hl'
        rcases List.mem_cons.mp hl' with hl' | hl'
        · subst hl'
          refine ⟨l, List.mem_cons_self _ _, rfl, ?_⟩
          unfold Proof.Line.rule
          rw [hj]
          rfl
        · obtain ⟨l0, hl0, he⟩ := h4 l' hl'
          exact ⟨l0, List.mem_cons_of_mem _ hl0, he⟩

theorem splice_result_shape (main_proof : Proof) (line_number : Nat)
    (lemma_proof : Proof) :
    ∃ suffix : List Proof.Line,
      (splice_result main_proof line_number lemma_proof).new_lines =
        main_proof.lines.take line_number ++ suffix ∧
      suffix.length =
        (specialized_lemma main_proof line_number lemma_proof).lines.countP
          (fun l => l.justification.isSome) ∧
      (splice_result main_proof line_number lemma_proof).acount =
        (specialized_lemma main_proof line_number lemma_proof).lines.countP
          (fun l => l.justification.isNone) ∧
      (∀ l' ∈ suffix,
        ∃ l0 ∈ (specialized_lemma main_proof line_number lemma_proof).lines,
          l'.formula = l0.formula ∧ l'.rule = l0.rule) := by
  obtain ⟨suffix, h1, h2, h3, h4⟩ := splice_lemma_lines_shape
    (specialized_lemma main_proof line_number lemma_proof).statement.assumptions
    (((main_proof.lineAt line_number).line_assumptions).getD [])
    (specialized_lemma main_proof line_number lemma_proof).lines 0
    ⟨main_proof.lines.take line_number, [], 0⟩
  refine ⟨suffix, h1, h2, ?_, h4⟩
  have h3' : (splice_result main_proof line_number lemma_proof).acount =
      0 + (specialized_lemma main_proof line_number lemma_proof).lines.countP
        (fun l => l.justification.isNone) := h3
  omega

theorem countP_isSome_add_isNone (ls : List Proof.Line) :
    ls.countP (fun l => l.justification.isSome) +
    ls.countP (fun l => l.justification.isNone) = ls.length := by
  induction ls with
  | nil => rfl
  | cons l rest ih =>
    cases hj : l.justification with
    | none =>
      rw [List.countP_cons_of_neg _ _ (by simp [hj]),
        List.countP_cons_of_pos _ _ (by simp [hj]), List.length_cons]
      omega
    | some rjs =>
      rw [List.countP_cons_of_pos _ _ (by simp [hj]),
        List.countP_cons_of_neg _ _ (by simp [hj]), List.length_cons]
      omega

theorem splice_offset_eq (main_proof : Proof) (line_number : Nat)
    (lemma_proof : Proof) :
    splice_offset main_proof line_number lemma_proof =
    ((specialized_lemma main_proof line_number lemma_proof).lines.countP
      (fun l => l.justification.isSome) : Int) - 1 := by
  obtain ⟨suffix, _, _, hac, _⟩ :=
    splice_result_shape main_proof line_number lemma_proof
  unfold splice_offset
  rw [hac]
  have := countP_isSome_add_isNone
    (specialized_lemma main_proof line_number lemma_proof).lines
  omega

/-- C8: `_inline_proof_once` keeps every line before `line_number`
unchanged, and after the spliced block replays the remaining lines of the
main proof through `remap_line`: assumption lines unchanged, derivation
lines with the same formula and rule and each justification number `j`
turned into `j` when `j < line_number` and `j + offset` otherwise, where
`offset` is the specialized lemma proof's derivation-line count minus
one. -/
theorem c8_inline_proof_once_frame (main_proof : Proof)
    (line_number : Nat) (lemma_proof : Proof)
    (h : line_number < main_proof.lines.length) :
    (inline_proof_once main_proof line_number lemma_proof).lines.take
        line_number = main_proof.lines.take line_number ∧
    (inline_proof_once main_proof line_number lemma_proof).lines.drop
        (line_number +
          (specialized_lemma main_proof line_number lemma_proof).lines.countP
            (fun l => l.justification.isSome)) =
      (main_proof.lines.drop (line_number + 1)).map
        (remap_line line_number
          (((specialized_lemma main_proof line_number
              lemma_proof).lines.countP
            (fun l => l.justification.isSome) : Int) - 1)) := by
  obtain ⟨suffix, hnew, hslen, _, _⟩ :=
    splice_result_shape main_proof line_number lemma_proof
  have htakelen : (main_proof.lines.take line_number).length = line_number := by
    rw [List.length_take]
    omega
  have hlines : (inline_proof_once main_proof line_number lemma_proof).lines =
      (main_proof.lines.take line_number ++ suffix) ++
        (main_proof.lines.drop (line_number + 1)).map
          (remap_line line_number
            (splice_offset main_proof line_number lemma_proof)) := by
    show (splice_result main_proof line_number lemma_proof).new_lines ++ _ =
      _
    rw [hnew]
  constructor
  · rw [hlines, List.append_assoc]
    exact List.take_left' htakelen
  · rw [hlines, splice_offset_eq]
    apply List.drop_left'
    rw [List.length_append, htakelen, hslen]

/-- Witness for C8 at the sample main proof. -/
theorem c8_witness :
    (inline_proof_once sample_main_proof 0 sample_lemma_proof).lines.take 0 =
      sample_main_proof.lines.take 0 ∧
    (inline_proof_once sample_main_proof 0 sample_lemma_proof).lines.drop
        (0 + (specialized_lemma sample_main_proof 0
            sample_lemma_proof).lines.countP
          (fun l => l.justification.isSome)) =
      (sample_main_proof.lines.drop (0 + 1)).map
        (remap_line 0
          (((specialized_lemma sample_main_proof 0
              sample_lemma_proof).lines.countP
            (fun l => l.justification.isSome) : Int) - 1)) :=
  c8_inline_proof_once_frame sample_main_proof 0 sample_lemma_proof
    (by decide)

/-! Termination of the inlining loop (C9). -/

theorem remap_line_rule (line_number : Nat) (offset : Int)
    (l : Proof.Line) : (remap_line line_number offset l).rule = l.rule := by
  unfold remap_line
  cases hj : l.justification with
  | none => rfl
  | some rjs =>
    obtain ⟨r, js⟩ := rjs
    unfold Proof.Line.rule
    rw [hj]
    rfl

theorem specialized_lemma_line_rules (main_proof : Proof)
    (line_number : Nat) (lemma_proof : Proof) :
    ∀ l0 ∈ (specialized_lemma main_proof line_number lemma_proof).lines,
      ∃ l1 ∈ lemma_proof.lines, l0.rule = l1.rule := by
  intro l0 h0
  have h0' : l0 ∈ lemma_proof.lines.map (fun l =>
      (⟨l.formula.substitute_variables
        ((lemma_proof.statement.specialization_map
          ((main_proof.rule_for_line line_number).getD
            ⟨[], Formula.const true⟩)).getD []),
        l.justification⟩ : Proof.Line)) := h0
  obtain ⟨l1, hl1, he⟩ := List.mem_map.mp h0'
  refine ⟨l1, hl1, ?_⟩
  rw [← he]
  rfl

theorem lineAt_eq_getElem {p : Proof} {i : Nat} (h : i < p.lines.length) :
    p.lineAt i = p.lines[i] := by
  unfold Proof.lineAt
  rw [List.getD_eq_getElem?_getD, List.getElem?_eq_getElem h]
  rfl

theorem usage_count_inline_proof_once {main_proof lemma_proof : Proof}
    {i : Nat}
    (hno : ∀ l ∈ lemma_proof.lines, ¬ l.rule = some lemma_proof.statement)
    (hi : i < main_proof.lines.length)
    (hrule : (main_proof.lineAt i).rule = some lemma_proof.statement) :
    usage_count (inline_proof_once main_proof i lemma_proof)
        lemma_proof.statement + 1 =
      usage_count main_proof lemma_proof.statement := by
  obtain ⟨suffix, hnew, _, _, hmem⟩ :=
    splice_result_shape main_proof i lemma_proof
  have hlines : (inline_proof_once main_proof i lemma_proof).lines =
      (main_proof.lines.take i ++ suffix) ++
        (main_proof.lines.drop (i + 1)).map
          (remap_line i (splice_offset main_proof i lemma_proof)) := by
    show (splice_result main_proof i lemma_proof).new_lines ++ _ = _
    rw [hnew]
  unfold usage_count
  rw [hlines, List.countP_append, List.countP_append]
  have hsuf : suffix.countP
      (fun l => decide (l.rule = some lemma_proof.statement)) = 0 := by
    apply List.countP_eq_zero.mpr
    intro l' hl'
    obtain ⟨l0, hl0, _, hrule'⟩ := hmem l' hl'
    obtain ⟨l1, hl1, hrule''⟩ :=
      specialized_lemma_line_rules main_proof i lemma_proof l0 hl0
    simp only [decide_eq_true_iff]
    rw [hrule', hrule'']
    exact hno l1 hl1
  have htail : ((main_proof.lines.drop (i + 1)).map
        (remap_line i (splice_offset main_proof i lemma_proof))).countP
        (fun l => decide (l.rule = some lemma_proof.statement)) =
      (main_proof.lines.drop (i + 1)).countP
        (fun l => decide (l.rule = some lemma_proof.statement)) := by
    rw [List.countP_map]
    have he : ((fun l => decide (l.rule = some lemma_proof.statement)) ∘
        remap_line i (splice_offset main_proof i lemma_proof)) =
        (fun l : Proof.Line =>
          decide (l.rule = some lemma_proof.statement)) := by
      funext l
      show decide ((remap_line i _ l).rule = some lemma_proof.statement) = _
      rw [remap_line_rule]
    rw [he]
  have hsplit : main_proof.lines =
      main_proof.lines.take i ++
        (main_proof.lines[i] :: main_proof.lines.drop (i + 1)) := by
    conv_lhs => rw [← List.take_append_drop i main_proof.lines]
    rw [List.drop_eq_getElem_cons hi]
  have hpos : (fun l => decide (l.rule = some lemma_proof.statement))
      main_proof.lines[i] = true := by
    show decide (main_proof.lines[i].rule = some lemma_proof.statement) = true
    rw [← lineAt_eq_getElem hi]
    exact decide_eq_true hrule
  have hcons : List.countP
      (fun l => decide (l.rule = some lemma_proof.statement))
      (main_proof.lines[i] :: main_proof.lines.drop (i + 1)) =
      List.countP (fun l => decide (l.rule = some lemma_proof.statement))
        (main_proof.lines.drop (i + 1)) + 1 :=
    List.countP_cons_of_pos _ _ hpos
  have hdecomp : main_proof.lines.countP
      (fun l => decide (l.rule = some lemma_proof.statement)) =
      (main_proof.lines.take i).countP
        (fun l => decide (l.rule = some lemma_proof.statement)) +
      ((main_proof.lines.drop (i + 1)).countP
        (fun l => decide (l.rule = some lemma_proof.statement)) + 1) := by
    conv_lhs => rw [hsplit]
    rw [List.countP_append, hcons]
  rw [hsuf, htail, hdecomp]
  omega

theorem find_line_usage_none_iff (r : InferenceRule)
    (ls : List Proof.Line) :
    find_line_usage r ls = none ↔
      ls.countP (fun l => decide (l.rule = some r)) = 0 := by
  induction ls with
  | nil => simp [find_line_usage]
  | cons l rest ih =>
    unfold find_line_usage
    by_cases hl : l.rule = some r
    · have hc : List.countP (fun l => decide (l.rule = some r)) (l :: rest) =
          List.countP (fun l => decide (l.rule = some r)) rest + 1 :=
        List.countP_cons_of_pos _ _ (decide_eq_true hl)
      rw [if_pos hl, hc]
      constructor
      · intro h; cases h
      · intro h; omega
    · have hc : List.countP (fun l => decide (l.rule = some r)) (l :: rest) =
          List.countP (fun l => decide (l.rule = some r)) rest :=
        List.countP_cons_of_neg _ _ (by simp [hl])
      rw [if_neg hl, hc, ← ih]
      cases hf : find_line_usage r rest <;> simp [hf]

theorem find_line_usage_some {r : InferenceRule} {ls : List Proof.Line}
    {i : Nat} (h : find_line_usage r ls = some i) :
    i < ls.length ∧ (ls.getD i default_line).rule = some r := by
  induction ls generalizing i with
  | nil => cases h
  | cons l rest ih =>
    unfold find_line_usage at h
    by_cases hl : l.rule = some r
    · rw [if_pos hl] at h
      obtain ⟨rfl⟩ := Option.some.injEq _ _ ▸ h
      exact ⟨by simp, hl⟩
    · rw [if_neg hl] at h
      cases hf : find_line_usage r rest with
      | none => rw [hf] at h; cases h
      | some i0 =>
        rw [hf] at h
        have hii : i0 + 1 = i := Option.some_inj.mp h
        obtain ⟨h1, h2⟩ := ih hf
        subst hii
        refine ⟨?_, h2⟩
        rw [List.length_cons]
        omega

theorem find_usage_none_iff (p : Proof) (r : InferenceRule) :
    find_usage p r = none ↔ usage_count p r = 0 :=
  find_line_usage_none_iff r p.lines

theorem find_usage_some {p : Proof} {r : InferenceRule} {i : Nat}
    (h : find_usage p r = some i) :
    i < p.lines.length ∧ (p.lineAt i).rule = some r :=
  find_line_usage_some h

theorem inline_loop_of_find_none {lemma_proof p : Proof}
    (h : find_usage p lemma_proof.statement = none) :
    ∀ fuel, inline_loop lemma_proof fuel p = p := by
  intro fuel
  cases fuel with
  | zero => rfl
  | succ n =>
    have hb : inline_loop lemma_proof (n + 1) p =
        (match find_usage p lemma_proof.statement with
          | none => p
          | some i =>
            inline_loop lemma_proof n (inline_proof_once p i lemma_proof)) :=
      rfl
    rw [hb, h]

theorem inline_loop_usage_zero (lemma_proof : Proof)
    (hno : ∀ l ∈ lemma_proof.lines, ¬ l.rule = some lemma_proof.statement) :
    ∀ (n : Nat) (p : Proof),
      usage_count p lemma_proof.statement ≤ n →
      usage_count (inline_loop lemma_proof n p) lemma_proof.statement = 0 := by
  intro n
  induction n with
  | zero =>
    intro p hp
    exact Nat.le_zero.mp hp
  | succ n ih =>
    intro p hp
    cases hf : find_usage p lemma_proof.statement with
    | none =>
      show usage_count (inline_loop lemma_proof (n + 1) p) _ = 0
      rw [inline_loop_of_find_none hf]
      exact (find_usage_none_iff p _).mp hf
    | some i =>
      obtain ⟨hi, hrule⟩ := find_usage_some hf
      have hdec := usage_count_inline_proof_once hno hi hrule
      have hb : inline_loop lemma_proof (n + 1) p =
          (match find_usage p lemma_proof.statement with
            | none => p
            | some i =>
              inline_loop lemma_proof n (inline_proof_once p i lemma_proof)) :=
        rfl
      rw [hb, hf]
      exact ih (inline_proof_once p i lemma_proof) (by omega)

theorem inline_loop_fuel_stable (lemma_proof : Proof)
    (hno : ∀ l ∈ lemma_proof.lines, ¬ l.rule = some lemma_proof.statement) :
    ∀ (n : Nat) (p : Proof),
      usage_count p lemma_proof.statement ≤ n →
      ∀ k, inline_loop lemma_proof (n + k) p = inline_loop lemma_proof n p := by
  intro n
  induction n with
  | zero =>
    intro p hp k
    have hf : find_usage p lemma_proof.statement = none :=
      (find_usage_none_iff p _).mpr (by omega)
    rw [inline_loop_of_find_none hf, inline_loop_of_find_none hf]
  | succ n ih =>
    intro p hp k
    cases hf : find_usage p lemma_proof.statement with
    | none => rw [inline_loop_of_find_none hf, inline_loop_of_find_none hf]
    | some i =>
      obtain ⟨hi, hrule⟩ := find_usage_some hf
      have hdec := usage_count_inline_proof_once hno hi hrule
      have e1 : n + 1 + k = (n + k) + 1 := by omega
      have hstep1 : inline_loop lemma_proof ((n + k) + 1) p =
          (match find_usage p lemma_proof.statement with
            | none => p
            | some i =>
              inline_loop lemma_proof (n + k)
                (inline_proof_once p i lemma_proof)) := rfl
      have hstep2 : inline_loop lemma_proof (n + 1) p =
          (match find_usage p lemma_proof.statement with
            | none => p
            | some i =>
              inline_loop lemma_proof n (inline_proof_once p i lemma_proof)) :=
        rfl
      rw [e1, hstep1, hstep2, hf]
      exact ih (inline_proof_once p i lemma_proof) (by omega) k

/-- C9: under the precondition that the lemma's own proof never cites the
lemma rule, each `_inline_proof_once` step strictly decreases the number
of lines citing the lemma rule, and `inline_proof`'s scan-and-splice loop
reaches, within the fuel `inline_proof` gives it, a proof with no such
line — and extra fuel changes nothing, so the Python `while` loop
performs exactly that many iterations and terminates. -/
theorem c9_inline_proof_terminates (main_proof lemma_proof : Proof)
    (hmain : main_proof.is_valid = true)
    (hlemma : lemma_proof.is_valid = true)
    (hno : ∀ l ∈ lemma_proof.lines, ¬ l.rule = some lemma_proof.statement) :
    (∀ (p : Proof) (i : Nat), i < p.lines.length →
      (p.lineAt i).rule = some lemma_proof.statement →
      usage_count (inline_proof_once p i lemma_proof)
          lemma_proof.statement + 1 =
        usage_count p lemma_proof.statement) ∧
    usage_count
      (inline_loop lemma_proof (usage_count main_proof lemma_proof.statement)
        main_proof) lemma_proof.statement = 0 ∧
    (∀ k, inline_loop lemma_proof
        (usage_count main_proof lemma_proof.statement + k) main_proof =
      inline_loop lemma_proof (usage_count main_proof lemma_proof.statement)
        main_proof) :=
  ⟨fun _ i hi hrule => usage_count_inline_proof_once hno hi hrule,
   inline_loop_usage_zero lemma_proof hno _ main_proof (Nat.le_refl _),
   fun k => inline_loop_fuel_stable lemma_proof hno _ main_proof
     (Nat.le_refl _) k⟩

/-- Witness for C9 at the sample proofs. -/
theorem c9_witness :
    usage_count
      (inline_loop sample_lemma_proof
        (usage_count sample_main_proof sample_lemma_proof.statement)
        sample_main_proof) sample_lemma_proof.statement = 0 :=
  (c9_inline_proof_terminates sample_main_proof sample_lemma_proof
    (by decide) (by decide) (by decide)).2.1

/-! Allowed rules of `inline_proof` (C7). -/

theorem inline_loop_rules_of_subset (lemma_proof : Proof) :
    ∀ (n : Nat) (p : Proof), lemma_proof.rules ⊆ p.rules →
      (inline_loop lemma_proof n p).rules = p.rules := by
  intro n
  induction n with
  | zero => intro p _; rfl
  | succ n ih =>
    intro p hsub
    have hb : inline_loop lemma_proof (n + 1) p =
        (match find_usage p lemma_proof.statement with
          | none => p
          | some i =>
            inline_loop lemma_proof n (inline_proof_once p i lemma_proof)) :=
      rfl
    cases hf : find_usage p lemma_proof.statement with
    | none => rw [hb, hf]
    | some i =>
      rw [hb, hf]
      have honce : (inline_proof_once p i lemma_proof).rules = p.rules := by
        show p.rules ∪ lemma_proof.rules = p.rules
        exact Finset.union_eq_left.mpr hsub
      rw [ih (inline_proof_once p i lemma_proof) (by rw [honce]; exact hsub),
        honce]

/-- C7 (amended): when at least one line of the main proof cites the
lemma rule, `inline_proof`'s allowed rules are the union of both proofs'
rules minus the lemma rule; when no line cites it, the loop body never
runs and the rules are the main proof's rules minus the lemma rule — the
union with the lemma proof's rules is not taken. -/
theorem c7_inline_proof_rules_amended (main_proof lemma_proof : Proof)
    (hmain : main_proof.is_valid = true)
    (hlemma : lemma_proof.is_valid = true) :
    (0 < usage_count main_proof lemma_proof.statement →
      (inline_proof main_proof lemma_proof).rules =
        (main_proof.rules ∪ lemma_proof.rules).erase lemma_proof.statement) ∧
    (usage_count main_proof lemma_proof.statement = 0 →
      (inline_proof main_proof lemma_proof).rules =
        main_proof.rules.erase lemma_proof.statement) := by
  constructor
  · intro hpos
    show ((inline_loop lemma_proof
        (usage_count main_proof lemma_proof.statement)
        main_proof).rules).erase lemma_proof.statement = _
    obtain ⟨u, hu⟩ : ∃ u,
        usage_count main_proof lemma_proof.statement = u + 1 :=
      ⟨usage_count main_proof lemma_proof.statement - 1, by omega⟩
    obtain ⟨i, hf⟩ : ∃ i,
        find_usage main_proof lemma_proof.statement = some i := by
      cases hf0 : find_usage main_proof lemma_proof.statement with
      | none =>
        exfalso
        have := (find_usage_none_iff main_proof lemma_proof.statement).mp hf0
        omega
      | some i => exact ⟨i, rfl⟩
    have hb : inline_loop lemma_proof (u + 1) main_proof =
        (match find_usage main_proof lemma_proof.statement with
          | none => main_proof
          | some i =>
            inline_loop lemma_proof u
              (inline_proof_once main_proof i lemma_proof)) := rfl
    rw [hu, hb, hf]
    have hrules : (inline_loop lemma_proof u
        (inline_proof_once main_proof i lemma_proof)).rules =
        (inline_proof_once main_proof i lemma_proof).rules :=
      inline_loop_rules_of_subset lemma_proof u _
        (by show lemma_proof.rules ⊆ main_proof.rules ∪ lemma_proof.rules
            exact Finset.subset_union_right)
    rw [hrules]
    rfl
  · intro hz
    show ((inline_loop lemma_proof
        (usage_count main_proof lemma_proof.statement)
        main_proof).rules).erase lemma_proof.statement = _
    have hf : find_usage main_proof lemma_proof.statement = none :=
      (find_usage_none_iff main_proof lemma_proof.statement).mpr hz
    rw [inline_loop_of_find_none hf]

/-- Witness for the amended C7 at the sample proofs, where the lemma rule
is used once. -/
theorem c7_witness :
    (inline_proof sample_main_proof sample_lemma_proof).rules =
      (sample_main_proof.rules ∪ sample_lemma_proof.rules).erase
        sample_lemma_proof.statement :=
  (c7_inline_proof_rules_amended sample_main_proof sample_lemma_proof
    (by decide) (by decide)).1 (by decide)

/-- A valid main proof that never cites the lemma rule. -/
def sample_nouse_main : Proof :=
  ⟨⟨[Formula.var "q"], Formula.var "q"⟩, ∅, [⟨Formula.var "q", none⟩]⟩

/-- A valid lemma proof whose allowed-rule set holds a rule the main
proof's does not. -/
def sample_nouse_lemma : Proof :=
  ⟨⟨[Formula.var "r"], Formula.var "r"⟩, {⟨[], Formula.var "p"⟩},
   [⟨Formula.var "r", none⟩]⟩

/-- Counterexample to C7 as stated: both proofs are valid, but since no
line of the main proof cites the lemma rule, `inline_proof` returns the
main proof's rules minus the lemma rule, not the union minus the lemma
rule. -/
theorem c7_counterexample :
    sample_nouse_main.is_valid = true ∧
    sample_nouse_lemma.is_valid = true ∧
    (inline_proof sample_nouse_main sample_nouse_lemma).rules ≠
      (sample_nouse_main.rules ∪ sample_nouse_lemma.rules).erase
        sample_nouse_lemma.statement := by
  refine ⟨by decide, by decide, ?_⟩
  decide

/-! The slip in `_inline_proof_once`'s renumbering (C3). -/

/-- A valid proof of `q, s ⊢ q` that cites the lemma rule `p ⊢ p` on its
line 2 and then cites line 2 from line 3. -/
def c3_main_input : Proof :=
  ⟨⟨[Formula.var "q", Formula.var "s"], Formula.var "q"⟩,
   {⟨[Formula.var "p"], Formula.var "p"⟩,
    ⟨[Formula.var "r"], Formula.var "r"⟩},
   [⟨Formula.var "q", none⟩,
    ⟨Formula.var "s", none⟩,
    ⟨Formula.var "q", some (⟨[Formula.var "p"], Formula.var "p"⟩, [0])⟩,
    ⟨Formula.var "q", some (⟨[Formula.var "r"], Formula.var "r"⟩, [2])⟩]⟩

/-- A valid proof of the lemma rule `p ⊢ p` consisting of a single
assumption line — zero derivation lines, so the inliner's `offset` is
`-1`. -/
def c3_lemma_input : Proof :=
  ⟨⟨[Formula.var "p"], Formula.var "p"⟩, ∅, [⟨Formula.var "p", none⟩]⟩

/-- C3 fails on the code: on this input every precondition of
`inline_proof` holds — the main proof is valid, cites the lemma rule
among its allowed rules, and the lemma proof is a valid proof of that
rule — yet the returned proof is invalid: the replaced line is line 2,
the specialized lemma proof contributes zero derivation lines, so line
3's reference to line 2 is remapped by `offset = -1` to line 1, which
holds `s` instead of `q`. -/
theorem c3_inline_proof_invalid_on_derivation_free_lemma :
    c3_main_input.is_valid = true ∧
    c3_lemma_input.is_valid = true ∧
    c3_lemma_input.statement ∈ c3_main_input.rules ∧
    (c3_main_input.lineAt 2).rule = some c3_lemma_input.statement ∧
    (inline_proof c3_main_input c3_lemma_input).statement =
      c3_main_input.statement ∧
    c3_lemma_input.statement ∉ (inline_proof c3_main_input c3_lemma_input).rules ∧
    (inline_proof c3_main_input c3_lemma_input).is_valid = false := by
  refine ⟨by decide, by decide, by decide, by decide, by decide, by decide, ?_⟩
  decide
